import Mathlib

/-!
Verification of the TopFarm boundary-constraint geometry engine
(`topfarm/constraint_components/boundary.py`).

The Python module computes signed distances and analytic gradients from
turbine positions to boundary polygons (convex hull, box, circle, general
polygon, multi-polygon with inclusion/exclusion zones).  Floating-point
numbers are modelled as exact real numbers `ℝ`; the exact integer/rational
parts (ring normalization, the polygon-merge control flow, the relaxation
schedule) are modelled over `ℚ` where possible so that concrete instances
can be evaluated by `decide`/`norm_num`.

Naming follows the source: e.g. `getEdges` embeds the inner `get_edges`
of `PolygonBoundaryComp.get_boundary_properties`, `calcEdgeDG` embeds the
per-point/per-edge body of `PolygonBoundaryComp._calc_distance_and_gradients`.
-/

/-! ## Rational 2-D points (used for the exact ring-normalization part) -/

abbrev Q2 := ℚ × ℚ

/-- `get_edges` closing step: `if np.any(vertices[0] != vertices[-1]):
vertices = np.r_[vertices, vertices[:1]]`. -/
def closeRing (v : List Q2) : List Q2 :=
  if v.head? = v.getLast? then v else v ++ v.take 1

/-- Shoelace sum over consecutive vertex pairs of a (closed) ring:
`double_area = np.sum((x1 - x2) * (y1 + y2))` where `x1,y1 = vertices[:-1].T`
and `x2,y2 = vertices[1:].T`.  Positive for counter-clockwise rings. -/
def shoelace : List Q2 → ℚ
  | [] => 0
  | [_] => 0
  | a :: b :: rest => (a.1 - b.1) * (a.2 + b.2) + shoelace (b :: rest)

/-- One pass of `get_edges` with explicit recursion fuel.  The Python
function recurses on the reversed vertex list when the winding does not
match the requested orientation; since reversal negates the shoelace sum,
at most one recursive call happens, so fuel 2 is exact.  The `assert
double_area != 0` failure (the spec's `DegenerateGeometryError`) is
modelled as `none`. -/
def getEdgesFuel : ℕ → List Q2 → Bool → Option (List Q2 × List Q2 × List Q2)
  | 0, _, _ => none
  | n + 1, vertices, counterClockwise =>
    let v := closeRing vertices
    let da := shoelace v
    if da = 0 then none
    else if (counterClockwise ∧ da < 0) ∨ (¬counterClockwise ∧ 0 < da) then
      getEdgesFuel n v.reverse counterClockwise
    else
      some (v.dropLast, v.dropLast, v.tail)

/-- `get_edges(vertices, counter_clockwise)` from
`PolygonBoundaryComp.get_boundary_properties`: returns
`(vertices[:-1], A, B)` for the closed, correctly oriented ring, or fails
(assertion) when the shoelace double-area is zero. -/
def getEdges (vertices : List Q2) (counterClockwise : Bool) :
    Option (List Q2 × List Q2 × List Q2) :=
  getEdgesFuel 2 vertices counterClockwise

/-! ## Relaxation schedule (`MultiPolygonBoundaryComp.calc_relaxation`) -/

/-- `calc_relaxation` as a function of the iteration number used in the
formula (`iteration_no = self.problem.cost_comp.n_grad_eval + 1`):
`max(0, self.relaxation[0] * (self.relaxation[1] - iteration_no))`,
with `relaxation = (rate, horizon)`. -/
noncomputable def calcRelaxation (rate horizon : ℝ) (iterationNo : ℕ) : ℝ :=
  max 0 (rate * (horizon - iterationNo))

/-- The offset actually added on a call when `n_grad_eval` gradient
evaluations have happened: `iteration_no = n_grad_eval + 1`. -/
noncomputable def calcRelaxationAtGradEval (rate horizon : ℝ) (nGradEval : ℕ) : ℝ :=
  calcRelaxation rate horizon (nGradEval + 1)

/-! ## Zone merging (`MultiPolygonBoundaryComp._calc_resulting_polygons`)

The merge algorithm's control flow lives in the source; the geometric
kernel it calls (`shapely`: `area`, `intersects`, `contains`,
`unary_union`, `symmetric_difference`/`difference`, hole construction) is
an external library.  The algorithm is therefore embedded parametrically
over those operations. -/

/-- Shape of the result of `(d.symmetric_difference(b)).difference(b)`:
the code checks `isinstance(..., Polygon)` / `isinstance(..., MultiPolygon)`
and silently drops any other geometry type. -/
inductive GeomResult (P : Type) where
  | poly (p : P)
  | multi (ps : List P)
  | degenerate

/-- External shapely operations used by `_calc_resulting_polygons`. -/
structure PolyOps (P : Type) where
  area : P → ℚ
  intersects : P → P → Bool
  contains : P → P → Bool
  union2 : P → P → P
  exclRemainder : P → P → GeomResult P
  withHole : P → P → P

/-- Body of the inclusion-zone inner loop for one existing domain polygon
`d` and the accumulating zone `b`: returns the polygons appended to `temp`
and the updated `b`. -/
def inclStep {P : Type} (ops : PolyOps P) (d b : P) : List P × P :=
  if ops.intersects d b then ([], ops.union2 d b)
  else if ops.contains d b then ([], b)
  else if ops.contains b d then ([], d)
  else (if ops.area b > 1 / 1000 then [d] else [], b)

/-- The inclusion-zone inner loop: after the last domain polygon, the
accumulated `b` is appended when its area exceeds the `1e-3` threshold
(`if j == len(domain) - 1: if b.area > 1e-3: temp.append(b)`). -/
def inclLoop {P : Type} (ops : PolyOps P) : List P → P → List P
  | [], _ => []
  | [d], b =>
    let s := inclStep ops d b
    s.1 ++ (if ops.area s.2 > 1 / 1000 then [s.2] else [])
  | d :: d' :: rest, b =>
    let s := inclStep ops d b
    s.1 ++ inclLoop ops (d' :: rest) s.2

/-- Body of the exclusion-zone inner loop for one existing domain polygon
`d` being cut by zone `b`.  Note: a single-`Polygon` remainder is appended
with **no** area check, while `MultiPolygon` parts are filtered at `1e-3`. -/
def exclStep {P : Type} (ops : PolyOps P) (d b : P) : List P :=
  if ops.intersects d b then
    match ops.exclRemainder d b with
    | .poly p => [p]
    | .multi ps => ps.filter (fun x => ops.area x > 1 / 1000)
    | .degenerate => []
  else if ops.contains b d then []
  else
    let d' := if ops.contains d b then ops.withHole d b else d
    if ops.area d' > 1 / 1000 then [d'] else []

def exclLoop {P : Type} (ops : PolyOps P) (domain : List P) (b : P) : List P :=
  List.foldr (fun d acc => exclStep ops d b ++ acc) [] domain

/-- The merge loop of `_calc_resulting_polygons`: zones are processed in
input order against the accumulated domain.  A zone meeting an empty
domain re-seeds it when it is an inclusion zone and is ignored (with a
warning) when it is an exclusion zone. -/
def calcResultingPolygonsFrom {P : Type} (ops : PolyOps P) :
    List (P × Bool) → List P → List P
  | [], domain => domain
  | (b, incl) :: rest, domain =>
    calcResultingPolygonsFrom ops rest
      (if domain.isEmpty then (if incl then [b] else domain)
       else if incl then inclLoop ops domain b
       else exclLoop ops domain b)

/-- `_calc_resulting_polygons(boundary_polygons)` with zone inclusion flags. -/
def calcResultingPolygons {P : Type} (ops : PolyOps P) (zones : List (P × Bool)) :
    List P :=
  calcResultingPolygonsFrom ops zones []

/-- A concrete geometric kernel on rational vertex rings for witnessing the
merge control flow: `area` is the exact shoelace polygon area.  The boolean
predicates and boolean-algebra operations model shapely calls that the
single-zone scenarios below never reach (the merge loop consults them only
once the domain already holds a polygon and a further zone arrives). -/
def ringOps : PolyOps (List Q2) where
  area r := |shoelace (closeRing r)| / 2
  intersects _ _ := false
  contains _ _ := false
  union2 d _ := d
  exclRemainder _ _ := .degenerate
  withHole d _ := d

/-! ## Real 2-D geometry: the floating-point distance/gradient engine

Floating-point arithmetic is modelled as exact arithmetic over `ℝ`;
`np.linalg.norm` over the coordinate axis is `Real.sqrt` of the sum of
squares. -/

open scoped Classical

abbrev V2 := ℝ × ℝ

noncomputable def dotV (u v : V2) : ℝ := u.1 * v.1 + u.2 * v.2

noncomputable def vsub (u v : V2) : V2 := (u.1 - v.1, u.2 - v.2)

/-- `np.linalg.norm(vec, axis=0)`. -/
noncomputable def vlen (u : V2) : ℝ := Real.sqrt (u.1 ^ 2 + u.2 ^ 2)

noncomputable def smulV (a : ℝ) (u : V2) : V2 := (a * u.1, a * u.2)

noncomputable def sdivV (u : V2) (a : ℝ) : V2 := (u.1 / a, u.2 / a)

noncomputable def crossV (u v : V2) : ℝ := u.1 * v.2 - u.2 * v.1

/-- One row of the boundary-properties table built by
`PolygonBoundaryComp.get_boundary_properties`: edge start `A`, end `B`,
edge vector `AB`, its length, the edge unit normal, and the averaged
vertex normals at `A` and `B`. -/
structure EdgeProps where
  A : V2
  B : V2
  AB : V2
  AB_len : ℝ
  edge_unit_normal : V2
  A_normal : V2
  B_normal : V2

/-- Well-formedness of one row as `get_boundary_properties` constructs it:
`AB = B - A`, `AB_len = |AB|` (positive for a non-degenerate edge), and
`edge_unit_normal = (-dy, dx) / AB_len`. -/
def EdgeWF (e : EdgeProps) : Prop :=
  e.AB = vsub e.B e.A ∧ e.AB_len = vlen e.AB ∧ 0 < e.AB_len ∧
  e.edge_unit_normal = sdivV (-e.AB.2, e.AB.1) e.AB_len

/-- Per-point, per-edge body of
`PolygonBoundaryComp._calc_distance_and_gradients`: the projection
parameter `a_tilde = dot(AP, AB) / |AB|` classifies the nearest feature
(`a_tilde < 0`: vertex A; `a_tilde > |AB|`: vertex B; otherwise the edge
interior); the returned pair is the signed distance and its gradient
`(ddist_dX, ddist_dY)`. -/
noncomputable def calcEdgeDG (e : EdgeProps) (P : V2) : ℝ × V2 :=
  let AP := vsub P e.A
  let BP := vsub P e.B
  let a_tilde := dotV AP e.AB / e.AB_len
  if a_tilde < 0 then
    let s : ℝ := if 0 < dotV AP e.A_normal then 1 else -1
    (s * vlen AP, smulV s (sdivV AP (vlen AP)))
  else if e.AB_len < a_tilde then
    let s : ℝ := if 0 < dotV BP e.B_normal then 1 else -1
    (s * vlen BP, smulV s (sdivV BP (vlen BP)))
  else
    (dotV AP e.edge_unit_normal, e.edge_unit_normal)

/-- Least absolute value of a list (`np.abs(...).min()` over edges). -/
noncomputable def minAbs : List ℝ → ℝ
  | [] => 0
  | [v] => |v|
  | v :: w :: rest => min |v| (minAbs (w :: rest))

/-- First index attaining the minimal absolute value, matching NumPy's
`np.argmin(np.abs(distance), 1)` (`argmin` returns the first occurrence
of the minimum). -/
noncomputable def argminAbs : List ℝ → ℕ
  | [] => 0
  | [_] => 0
  | v :: w :: rest => if |v| ≤ minAbs (w :: rest) then 0 else argminAbs (w :: rest) + 1

/-- Per-point reduction of `PolygonBoundaryComp.calc_distance_and_gradients`:
`closest_edge_index = np.argmin(np.abs(distance), 1)` followed by
`np.choose` of the distance and both gradient components at that index. -/
noncomputable def calcDistanceAndGradients (props : List EdgeProps) (P : V2) : ℝ × V2 :=
  (props.map (fun e => calcEdgeDG e P)).getD
    (argminAbs (props.map (fun e => (calcEdgeDG e P).1))) (0, (0, 0))

/-- `PolygonBoundaryComp.distances` (per-point selected signed distance). -/
noncomputable def distancesPoly (props : List EdgeProps) (x y : List ℝ) : List ℝ :=
  (x.zip y).map (fun p => (calcDistanceAndGradients props p).1)

/-- Diagonal entries of `PolygonBoundaryComp.gradients` (the code returns
`np.diagflat` of exactly these per-point values). -/
noncomputable def gradientsPoly (props : List EdgeProps) (x y : List ℝ) :
    List ℝ × List ℝ :=
  ((x.zip y).map (fun p => (calcDistanceAndGradients props p).2.1),
   (x.zip y).map (fun p => (calcDistanceAndGradients props p).2.2))

/-- `PolygonBoundaryComp.satisfy`: points with negative signed distance move
by `-grad * dist * pad`; all others are left untouched. -/
noncomputable def satisfyPoly (props : List EdgeProps) (pad : ℝ) (x y : List ℝ) :
    List ℝ × List ℝ :=
  let upd := (x.zip y).map (fun p =>
    let r := calcDistanceAndGradients props p
    if r.1 < 0 then (p.1 - r.2.1 * r.1 * pad, p.2 - r.2.2 * r.1 * pad) else p)
  (upd.map Prod.fst, upd.map Prod.snd)

/-- Bottom edge of the CCW square ring `(0,0),(10,0),(10,10),(0,10)` as
`get_boundary_properties` tabulates it (witness data). -/
noncomputable def edgeSq0 : EdgeProps :=
  ⟨(0, 0), (10, 0), (10, 0), 10, (0, 1), (1 / 2, 1 / 2), (-(1 / 2), 1 / 2)⟩

/-! ## Circle boundary (`CircleBoundaryComp`) -/

/-- `CircleBoundaryComp.distances`:
`radius - sqrt((x - cx)**2 + (y - cy)**2)`. -/
noncomputable def circleDistance (center : V2) (radius : ℝ) (P : V2) : ℝ :=
  radius - vlen (vsub P center)

/-- `CircleBoundaryComp.gradients` diagonal entries for one point.  The code
initializes `dx = dy = -1 * np.ones_like(x)` and overwrites, for every
point with `dist != radius` (every point other than the center), with
`(-cos θ, -sin θ)` where `θ = arctan2(y - cy, x - cx)`; away from the
center `cos θ = (x - cx)/|P - center|` and `sin θ = (y - cy)/|P - center|`.
A point at the center keeps the `-1` initialization. -/
noncomputable def circleGradient (center : V2) (radius : ℝ) (P : V2) : V2 :=
  if circleDistance center radius P ≠ radius then
    (-(P.1 - center.1) / vlen (vsub P center), -(P.2 - center.2) / vlen (vsub P center))
  else (-1, -1)

/-! ## Convex boundary (`ConvexBoundaryComp`) -/

/-- Outward unit normal of hull edge `j` from
`ConvexBoundaryComp.calculate_boundary_and_normals`:
`normal = (y[j+1] - y[j], -(x[j+1] - x[j]))` (wrapping around at the last
vertex), normalized by its Euclidean length. -/
noncomputable def convexNormal (verts : List V2) (j : ℕ) : V2 :=
  let a := verts.getD j (0, 0)
  let b := verts.getD ((j + 1) % verts.length) (0, 0)
  let normal : V2 := (b.2 - a.2, -(b.1 - a.1))
  sdivV normal (vlen normal)

/-- `ConvexBoundaryComp.calculate_distance_to_boundary` for one point and
one hull edge: `dist = dot(A - P, n)`, then the code re-projects the
distance vector onto the normal: `face_distance = dot(dist * n, n) =
dist * dot(n, n)`. -/
noncomputable def faceDistance (verts : List V2) (P : V2) (j : ℕ) : ℝ :=
  let n := convexNormal verts j
  dotV (vsub (verts.getD j (0, 0)) P) n * dotV n n

/-- `ConvexBoundaryComp.distances`: for each point, the signed perpendicular
distance to **every** hull edge (not just the minimum). -/
noncomputable def distancesConvex (verts : List V2) (x y : List ℝ) : List (List ℝ) :=
  (x.zip y).map (fun p => (List.range verts.length).map (fun j => faceDistance verts p j))

/-- Specification-level signed perpendicular distance from `P` to the line
through edge `j` of a CCW ring, positive on the interior side:
`cross(B - A, P - A) / |B - A|`. -/
noncomputable def specPerpDistance (verts : List V2) (P : V2) (j : ℕ) : ℝ :=
  let a := verts.getD j (0, 0)
  let b := verts.getD ((j + 1) % verts.length) (0, 0)
  crossV (vsub b a) (vsub P a) / vlen (vsub b a)

/-- The CCW square ring `(0,0),(10,0),(10,10),(0,10)` (witness data; for
this input scipy's `ConvexHull` keeps all four vertices in CCW order). -/
noncomputable def squareRing : List V2 := [(0, 0), (10, 0), (10, 10), (0, 10)]

/-! ## Convex gradients (`ConvexBoundaryComp.calculate_gradients`) and satisfy -/

/-- Per-edge x-derivative from `calculate_gradients`:
`dpa_dx = (-1, 0)`, `ddistanceVec_dx = vdot(dpa_dx, n) * n`, stored entry
`vdot(ddistanceVec_dx, n)`. -/
noncomputable def dfaceDistance_dx_entry (verts : List V2) (j : ℕ) : ℝ :=
  let n := convexNormal verts j
  dotV (smulV (dotV (-1, 0) n) n) n

/-- Per-edge y-derivative from `calculate_gradients` (`dpa_dy = (0, -1)`). -/
noncomputable def dfaceDistance_dy_entry (verts : List V2) (j : ℕ) : ℝ :=
  let n := convexNormal verts j
  dotV (smulV (dotV (0, -1) n) n) n

/-- The matrix `dfaceDistance_dx` built once at construction: entry
`[i * nVertices + j, i]` holds the per-edge derivative, all others zero. -/
noncomputable def dfaceDistance_dx (verts : List V2) (n_wt : ℕ) (r c : ℕ) : ℝ :=
  if r < n_wt * verts.length ∧ c = r / verts.length then
    dfaceDistance_dx_entry verts (r % verts.length)
  else 0

noncomputable def dfaceDistance_dy (verts : List V2) (n_wt : ℕ) (r c : ℕ) : ℝ :=
  if r < n_wt * verts.length ∧ c = r / verts.length then
    dfaceDistance_dy_entry verts (r % verts.length)
  else 0

/-- `ConvexBoundaryComp.gradients(x, y)`: returns the two arrays precomputed
at construction, ignoring the query positions entirely. -/
noncomputable def gradientsConvex (verts : List V2) (n_wt : ℕ) (x y : List ℝ) :
    (ℕ → ℕ → ℝ) × (ℕ → ℕ → ℝ) :=
  (dfaceDistance_dx verts n_wt, dfaceDistance_dy verts n_wt)

/-- `np.linspace(a, b, n)`. -/
noncomputable def linspace (a b : ℝ) (n : ℕ) : List ℝ :=
  (List.range n).map (fun k => a + (b - a) * k / (n - 1))

/-- First candidate of minimal squared norm
(`np.argmin(X[m]**2 + Y[m]**2)`, first occurrence); `(0, 0)` stands for the
empty-mask case in which NumPy would raise — unreachable for the feasible
points the claims concern. -/
noncomputable def pickMinNorm : List (ℝ × ℝ) → ℝ × ℝ
  | [] => (0, 0)
  | [p] => p
  | p :: q :: rest =>
    let best := pickMinNorm (q :: rest)
    if p.1 ^ 2 + p.2 ^ 2 ≤ best.1 ^ 2 + best.2 ^ 2 then p else best

noncomputable def minList : List ℝ → ℝ
  | [] => 0
  | [v] => v
  | v :: w :: rest => min v (minList (w :: rest))

/-- `ConvexBoundaryComp.satisfy`: distances to all faces are clamped
(`np.where(dist < 0, np.minimum(dist, -.01), dist)`); each point whose
minimum clamped face distance is negative is moved by the feasible
mesh-grid displacement of least norm (`v = linspace(-|d.min|, |d.min|,
100)`, mask `X*dx + Y*dy >= -d`); all other points are untouched. -/
noncomputable def satisfyConvex (verts : List V2) (x y : List ℝ) :
    List ℝ × List ℝ :=
  let nV := verts.length
  let dxs := (List.range nV).map (fun j => dfaceDistance_dx_entry verts j)
  let dys := (List.range nV).map (fun j => dfaceDistance_dy_entry verts j)
  let upd := (x.zip y).map (fun p =>
    let d := (List.range nV).map (fun j =>
      let dj := faceDistance verts p j
      if dj < 0 then min dj (-(1 / 100)) else dj)
    if minList d < 0 then
      let a := |minList d|
      let v := linspace (-a) a 100
      let cand := (v.product v).filter (fun c =>
        decide (∀ t ∈ (dxs.zip dys).zip d, -t.2 ≤ c.1 * t.1.1 + c.2 * t.1.2))
      let mv := pickMinNorm cand
      (p.1 + mv.1, p.2 + mv.2)
    else p)
  (upd.map Prod.fst, upd.map Prod.snd)

/-! ## Multi-polygon component (`MultiPolygonBoundaryComp`) -/

/-- Reduction policy: `method='nearest'` or `method='smooth_min'`. -/
inductive MPMethod where
  | nearest
  | smoothMin

/-- State of `MultiPolygonBoundaryComp` relevant to distance/gradient
queries: the flattened boundary-properties table over all resulting rings
(`boundary_properties_list_all`), the turbine count, the relaxation
configuration (`False`, or the `(rate, horizon)` pair), the external
gradient-evaluation counter (`problem.cost_comp.n_grad_eval`), the
reduction method, and the smooth-max kernel.
`smooth_max`/`smooth_max_gradient` live in `topfarm.utils`, outside this
module's source, and are carried as function-valued fields. -/
structure MPComp where
  props : List EdgeProps
  n_wt : ℕ
  relaxation : Option (ℝ × ℝ)
  n_grad_eval : ℕ
  method : MPMethod
  smooth_max : List ℝ → ℝ → ℝ
  smooth_max_gradient : List ℝ → ℝ → List ℝ

/-- Output triple of `calc_distance_and_gradients`: the point×edge distance
matrix `Dist_ij`, the stacked gradients `dDdk_ijk`, and `sign_i`. -/
structure MPOut where
  Dij : List (List ℝ)
  dDdk : List (List (ℝ × ℝ))
  sign_i : List ℝ

/-- `MultiPolygonBoundaryComp.sign`: `np.sign` of each row's entry at the
first index of minimal absolute value. -/
noncomputable def signRow (row : List ℝ) : ℝ :=
  Real.sign (row.getD (argminAbs row) 0)

/-- `_calc_distance_and_gradients` over the concatenated edge table,
vectorized over points × edges, plus the `sign_i` post-processing. -/
noncomputable def computeMP (props : List EdgeProps) (x y : List ℝ) : MPOut :=
  let rows := (x.zip y).map (fun p => props.map (fun e => calcEdgeDG e p))
  { Dij := rows.map (fun r => r.map (fun v => v.1))
    dDdk := rows.map (fun r => r.map (fun v => v.2))
    sign_i := rows.map (fun r => signRow (r.map (fun v => v.1))) }

/-- `MultiPolygonBoundaryComp.calc_distance_and_gradients`: the single-slot
cache is consulted only when the query equals the cached `(x, y)` **and**
relaxation is off (`np.all(np.array([x, y]) == self._cache_input) & (not
self.relaxation)`); otherwise the output is recomputed and the cache
refilled. -/
noncomputable def mpCalcDG (c : MPComp) (cache : Option ((List ℝ × List ℝ) × MPOut))
    (x y : List ℝ) : MPOut × Option ((List ℝ × List ℝ) × MPOut) :=
  match cache with
  | some (k, out) =>
    if k = (x, y) ∧ c.relaxation = none then (out, some (k, out))
    else (computeMP c.props x y, some ((x, y), computeMP c.props x y))
  | none => (computeMP c.props x y, some ((x, y), computeMP c.props x y))

/-- `calc_relaxation` of the component (`§C5` schedule at
`iteration_no = n_grad_eval + 1`). -/
noncomputable def mpCalcRelaxation (c : MPComp) : ℝ :=
  match c.relaxation with
  | some rh => calcRelaxation rh.1 rh.2 (c.n_grad_eval + 1)
  | none => 0

noncomputable def maxList : List ℝ → ℝ
  | [] => 0
  | [v] => v
  | v :: w :: rest => max v (maxList (w :: rest))

/-- `np.abs(Dist_ij).max()` over the whole matrix. -/
noncomputable def maxAbsAll (m : List (List ℝ)) : ℝ :=
  maxList (m.map (fun row => maxList (row.map (fun v => |v|))))

noncomputable def sumList (l : List ℝ) : ℝ := l.foldr (fun a b => a + b) 0

/-- `MultiPolygonBoundaryComp.distances`: reduce the per-edge matrix by the
chosen policy (`nearest`: entry at the first index of minimal absolute
value; `smooth_min`: smooth max of `|Dist|` at `alpha = -|Dist|.max()`,
re-signed), then add the relaxation offset to every point when relaxation
is configured. -/
noncomputable def mpDistances (c : MPComp) (cache : Option ((List ℝ × List ℝ) × MPOut))
    (x y : List ℝ) : List ℝ × Option ((List ℝ × List ℝ) × MPOut) :=
  let r := mpCalcDG c cache x y
  let o := r.1
  let base :=
    match c.method with
    | .nearest => o.Dij.map (fun row => row.getD (argminAbs row) 0)
    | .smoothMin =>
      (o.Dij.zip o.sign_i).map (fun rs =>
        c.smooth_max (rs.1.map (fun v => |v|)) (-maxAbsAll o.Dij) * rs.2)
  (if c.relaxation.isSome then base.map (fun v => v + mpCalcRelaxation c) else base, r.2)

/-- Per-point position gradient of `MultiPolygonBoundaryComp.gradients`
(the diagonal entries of the returned `np.diagflat` matrices). -/
noncomputable def mpPosGradient (c : MPComp) (o : MPOut) : List ℝ × List ℝ :=
  match c.method with
  | .nearest =>
    ((o.Dij.zip o.dDdk).map (fun rd => (rd.2.getD (argminAbs rd.1) (0, 0)).1),
     (o.Dij.zip o.dDdk).map (fun rd => (rd.2.getD (argminAbs rd.1) (0, 0)).2))
  | .smoothMin =>
    ((o.Dij.zip o.dDdk).map (fun rd =>
       sumList (List.zipWith (fun w g => w * g.1)
         (c.smooth_max_gradient (rd.1.map (fun v => |v|)) (-maxAbsAll o.Dij)) rd.2)),
     (o.Dij.zip o.dDdk).map (fun rd =>
       sumList (List.zipWith (fun w g => w * g.2)
         (c.smooth_max_gradient (rd.1.map (fun v => |v|)) (-maxAbsAll o.Dij)) rd.2)))

/-- `MultiPolygonBoundaryComp.gradients`: the position gradients, and — when
relaxation is configured — the additional component
`np.ones(self.n_wt) * self.relaxation[1]` with respect to the external
iteration variable. -/
noncomputable def mpGradients (c : MPComp) (cache : Option ((List ℝ × List ℝ) × MPOut))
    (x y : List ℝ) :
    ((List ℝ × List ℝ) × Option (List ℝ)) × Option ((List ℝ × List ℝ) × MPOut) :=
  let r := mpCalcDG c cache x y
  let sel := mpPosGradient c r.1
  match c.relaxation with
  | some rh => ((sel, some (List.replicate c.n_wt rh.2)), r.2)
  | none => ((sel, none), r.2)

/-- A concrete multi-polygon component with relaxation `(rate, horizon) =
(2, 3)` over the single bottom square edge (witness data; the smooth-max
kernel is irrelevant for `method='nearest'`). -/
noncomputable def mpCompRelax : MPComp :=
  ⟨[edgeSq0], 1, some (2, 3), 0, MPMethod.nearest, fun _ _ => 0, fun _ _ => []⟩

/-- The same component with relaxation disabled. -/
noncomputable def mpCompNoRelax : MPComp :=
  ⟨[edgeSq0], 1, none, 0, MPMethod.nearest, fun _ _ => 0, fun _ _ => []⟩

/-! ## Theorems -/
/-! ### Helper lemmas about `closeRing` and `shoelace` -/

theorem shoelace_pair (a b : Q2) (rest : List Q2) :
    shoelace (a :: b :: rest) = (a.1 - b.1) * (a.2 + b.2) + shoelace (b :: rest) := rfl

/-- The shoelace summand is antisymmetric in its two vertices. -/
theorem shoelace_term_antisymm (a b : Q2) :
    (a.1 - b.1) * (a.2 + b.2) = -((b.1 - a.1) * (b.2 + a.2)) := by ring

theorem shoelace_snoc (l : List Q2) (x a : Q2) :
    shoelace (l ++ [x, a]) = shoelace (l ++ [x]) + (x.1 - a.1) * (x.2 + a.2) := by
  induction l with
  | nil => simp [shoelace]
  | cons p l ih =>
    cases l with
    | nil => simp [shoelace]
    | cons q l' =>
      rw [show (p :: q :: l') ++ [x, a] = p :: ((q :: l') ++ [x, a]) from rfl,
          show (p :: q :: l') ++ [x] = p :: ((q :: l') ++ [x]) from rfl,
          show (q :: l') ++ [x, a] = q :: (l' ++ [x, a]) from rfl,
          show (q :: l') ++ [x] = q :: (l' ++ [x]) from rfl,
          shoelace_pair, shoelace_pair,
          show q :: (l' ++ [x, a]) = (q :: l') ++ [x, a] from rfl,
          show q :: (l' ++ [x]) = (q :: l') ++ [x] from rfl, ih]
      ring

/-- Reversing a vertex list negates the shoelace sum. -/
theorem shoelace_reverse (l : List Q2) : shoelace l.reverse = -shoelace l := by
  induction l with
  | nil => simp [shoelace]
  | cons a l ih =>
    cases l with
    | nil => simp [shoelace]
    | cons b l' =>
      have h : (a :: b :: l').reverse = l'.reverse ++ [b, a] := by simp
      have h2 : (b :: l').reverse = l'.reverse ++ [b] := by simp
      rw [h, shoelace_snoc, ← h2, ih, shoelace_pair]
      ring

/-- `closeRing` always produces a ring whose first and last vertices agree. -/
theorem closeRing_head_eq_getLast (v : List Q2) :
    (closeRing v).head? = (closeRing v).getLast? := by
  unfold closeRing
  split_ifs with h
  · exact h
  · cases v with
    | nil => simp at h
    | cons a t =>
      show (a :: (t ++ [a])).head? = (a :: (t ++ [a])).getLast?
      rw [show a :: (t ++ [a]) = (a :: t) ++ [a] from rfl, List.getLast?_concat]
      rfl

theorem closed_reverse {l : List Q2} (h : l.head? = l.getLast?) :
    l.reverse.head? = l.reverse.getLast? := by
  rw [List.head?_reverse, List.getLast?_reverse, h]

theorem closeRing_of_closed {l : List Q2} (h : l.head? = l.getLast?) : closeRing l = l := by
  unfold closeRing; rw [if_pos h]

theorem shoelace_eq_zero_of_short {l : List Q2} (h : l.length ≤ 1) : shoelace l = 0 := by
  match l with
  | [] => rfl
  | [_] => rfl
  | a :: b :: t => simp at h

theorem head?_dropLast {l : List Q2} (h : 2 ≤ l.length) : l.dropLast.head? = l.head? := by
  match l with
  | a :: b :: t => simp [List.dropLast]
  | [] => simp at h
  | [_] => simp at h

/-- A closed ring of length at least 2 is its own `dropLast` re-closed by
appending the head again (as `BoundaryBaseComp.__init__` does). -/
theorem closed_eq_dropLast_append {l : List Q2} (hc : l.head? = l.getLast?)
    (h2 : 2 ≤ l.length) : l = l.dropLast ++ [l.dropLast.headD (0, 0)] := by
  have hne : l ≠ [] := by
    intro e; subst e; simp at h2
  have hlast : l.dropLast ++ [l.getLast hne] = l := List.dropLast_append_getLast hne
  have hget : l.getLast? = some (l.getLast hne) := List.getLast?_eq_getLast l hne
  have hgethead : l.head? = some (l.getLast hne) := by rw [hc, hget]
  have hdl : l.dropLast.head? = some (l.getLast hne) := by
    rw [head?_dropLast h2, hgethead]
  have : l.dropLast.headD (0, 0) = l.getLast hne := by
    rw [List.headD_eq_head?_getD, hdl]; rfl
  rw [this, hlast]

/-- Unfolding lemma for one step of `getEdgesFuel`. -/
theorem getEdgesFuel_succ (n : ℕ) (vertices : List Q2) (ccw : Bool) :
    getEdgesFuel (n + 1) vertices ccw =
      (let v := closeRing vertices
       let da := shoelace v
       if da = 0 then none
       else if (ccw ∧ da < 0) ∨ (¬ccw ∧ 0 < da) then getEdgesFuel n v.reverse ccw
       else some (v.dropLast, v.dropLast, v.tail)) := rfl

/-- Case analysis of `get_edges`: it fails exactly on zero shoelace area, and
on success returns the (possibly reversed) closed ring minus its closing
vertex, with the shoelace sign matching the requested orientation. -/
theorem getEdges_cases (v : List Q2) (ccw : Bool) :
    (shoelace (closeRing v) = 0 ∧ getEdges v ccw = none) ∨
    (∃ w : List Q2, w.head? = w.getLast? ∧ shoelace (closeRing v) ≠ 0 ∧
      (ccw = true → 0 < shoelace w) ∧ (ccw = false → shoelace w < 0) ∧
      getEdges v ccw = some (w.dropLast, w.dropLast, w.tail)) := by
  by_cases h0 : shoelace (closeRing v) = 0
  · left
    refine ⟨h0, ?_⟩
    show getEdgesFuel 2 v ccw = none
    rw [show (2 : ℕ) = 1 + 1 from rfl, getEdgesFuel_succ]
    simp [h0]
  · right
    have hcl : (closeRing v).head? = (closeRing v).getLast? := closeRing_head_eq_getLast v
    by_cases hm : (ccw ∧ shoelace (closeRing v) < 0) ∨ (¬ccw ∧ 0 < shoelace (closeRing v))
    · refine ⟨(closeRing v).reverse, closed_reverse hcl, h0, ?_, ?_, ?_⟩
      · intro hc
        rw [shoelace_reverse]
        rcases hm with ⟨_, hlt⟩ | ⟨hnc, _⟩
        · linarith
        · exact absurd (by simpa using hc) (by simpa using hnc)
      · intro hc
        rw [shoelace_reverse]
        rcases hm with ⟨hcc, _⟩ | ⟨_, hgt⟩
        · rw [hc] at hcc; exact absurd hcc (by simp)
        · linarith
      · show getEdgesFuel 2 v ccw = _
        rw [show (2 : ℕ) = 1 + 1 from rfl, getEdgesFuel_succ]
        simp only [if_neg h0, if_pos hm]
        rw [getEdgesFuel_succ, closeRing_of_closed (closed_reverse hcl)]
        have hda' : shoelace (closeRing v).reverse = -shoelace (closeRing v) :=
          shoelace_reverse _
        have h0' : ¬shoelace (closeRing v).reverse = 0 := by
          rw [hda']; simpa using h0
        have hm' : ¬((ccw ∧ shoelace (closeRing v).reverse < 0) ∨
            (¬ccw ∧ 0 < shoelace (closeRing v).reverse)) := by
          rw [hda']
          rintro (⟨hcc, hlt⟩ | ⟨hnc, hgt⟩)
          · rcases hm with ⟨_, hlt2⟩ | ⟨hnc2, _⟩
            · linarith
            · exact hnc2 hcc
          · rcases hm with ⟨hcc2, _⟩ | ⟨_, hgt2⟩
            · exact hnc hcc2
            · linarith
        simp only [if_neg h0', if_neg hm']
    · refine ⟨closeRing v, hcl, h0, ?_, ?_, ?_⟩
      · intro hc
        rcases lt_or_gt_of_ne h0 with hlt | hgt
        · exact absurd (Or.inl ⟨by simp [hc], hlt⟩) hm
        · exact hgt
      · intro hc
        rcases lt_or_gt_of_ne h0 with hlt | hgt
        · exact hlt
        · exact absurd (Or.inr ⟨by simp [hc], hgt⟩) hm
      · show getEdgesFuel 2 v ccw = _
        rw [show (2 : ℕ) = 1 + 1 from rfl, getEdgesFuel_succ]
        simp only [if_neg h0, if_neg hm]

/-- **C4.** For every supplied ring whose shoelace signed double-area is zero
(collinear or duplicate points), boundary normalization fails — the
`assert double_area != 0` in `get_edges`, the failure the spec labels
`DegenerateGeometryError`, modelled here as `none`; for every ring with
non-zero signed area it succeeds, returning `vertices[:-1]` as both the
ring and the edge-start list `A`, with edge-end list `B`, and the ring
re-closed by appending its first vertex (as `BoundaryBaseComp.__init__`
does) is closed and correctly oriented: counter-clockwise (positive
shoelace area) for inclusion zones, clockwise (negative) otherwise. -/
theorem C4_ring_normalization (v : List Q2) (ccw : Bool) :
    (getEdges v ccw = none ↔ shoelace (closeRing v) = 0) ∧
    (∀ r A B, getEdges v ccw = some (r, A, B) →
      A = r ∧ B = (r ++ [r.headD (0, 0)]).tail ∧
      (r ++ [r.headD (0, 0)]).head? = (r ++ [r.headD (0, 0)]).getLast? ∧
      (ccw = true → 0 < shoelace (r ++ [r.headD (0, 0)])) ∧
      (ccw = false → shoelace (r ++ [r.headD (0, 0)]) < 0)) := by
  rcases getEdges_cases v ccw with ⟨h0, hn⟩ | ⟨w, hcl, h0, hpos, hneg, hs⟩
  · refine ⟨⟨fun _ => h0, fun _ => hn⟩, ?_⟩
    intro r A B hsome
    rw [hn] at hsome
    exact absurd hsome (by simp)
  · constructor
    · constructor
      · intro hnone
        rw [hs] at hnone
        exact absurd hnone (by simp)
      · intro hz
        exact absurd hz h0
    · intro r A B hsome
      rw [hs] at hsome
      have hr : w.dropLast = r := congrArg (fun p => p.1) (Option.some.inj hsome)
      have hA : w.dropLast = A :=
        congrArg (fun p => p.2.1) (Option.some.inj hsome)
      have hB : w.tail = B := congrArg (fun p => p.2.2) (Option.some.inj hsome)
      have hwne : shoelace w ≠ 0 := by
        cases ccw with
        | true => exact ne_of_gt (hpos rfl)
        | false => exact ne_of_lt (hneg rfl)
      have hlen : 2 ≤ w.length := by
        by_contra hshort
        exact hwne (shoelace_eq_zero_of_short (by omega))
      have hw : w = w.dropLast ++ [w.dropLast.headD (0, 0)] :=
        closed_eq_dropLast_append hcl hlen
      rw [hr] at hw
      refine ⟨hA.symm.trans hr, ?_, ?_, ?_, ?_⟩
      · rw [← hw, hB]
      · rw [← hw]; exact hcl
      · rw [← hw]; exact hpos
      · rw [← hw]; exact hneg

/-- Witness for C4: a counter-clockwise triangle normalizes successfully with
positive re-closed shoelace area, and a collinear "ring" is rejected. -/
theorem C4_witness :
    (getEdges [((0 : ℚ), 0), (1, 1), (2, 2)] true = none) ∧
    ((0 : ℚ) < shoelace ([((0 : ℚ), 0), (1, 0), (0, 1)] ++
        [([((0 : ℚ), 0), (1, 0), (0, 1)] : List Q2).headD (0, 0)])) := by
  constructor
  · exact (C4_ring_normalization [((0 : ℚ), 0), (1, 1), (2, 2)] true).1.2
      (by norm_num [closeRing, shoelace, Prod.ext_iff])
  · have h := (C4_ring_normalization [((0 : ℚ), 0), (1, 0), (0, 1)] true).2
      [((0 : ℚ), 0), (1, 0), (0, 1)] [((0 : ℚ), 0), (1, 0), (0, 1)]
      [((1 : ℚ), 0), (0, 1), (0, 0)]
      (by norm_num [getEdges, getEdgesFuel, closeRing, shoelace, Prod.ext_iff])
    exact h.2.2.2.1 rfl

/-- **C5.** For every relaxation configuration `(rate, horizon)` (a valid
configuration has non-negative rate and horizon) and every iteration count,
the relaxation offset equals `rate * horizon` at iteration 0, decays
linearly (`rate * (horizon - it)`) up to iteration `horizon`, hence is 0 at
`horizon`, is clamped at 0 afterwards, is monotonically non-increasing in
the iteration count and never negative; the code invokes the schedule at
`iteration_no = n_grad_eval + 1`. -/
theorem C5_relaxation_schedule (rate horizon : ℝ) (hr : 0 ≤ rate) (hh : 0 ≤ horizon) :
    calcRelaxation rate horizon 0 = rate * horizon ∧
    (∀ it : ℕ, (it : ℝ) ≤ horizon →
      calcRelaxation rate horizon it = rate * (horizon - it)) ∧
    (∀ it : ℕ, horizon ≤ (it : ℝ) → calcRelaxation rate horizon it = 0) ∧
    (∀ m n : ℕ, m ≤ n →
      calcRelaxation rate horizon n ≤ calcRelaxation rate horizon m) ∧
    (∀ it : ℕ, 0 ≤ calcRelaxation rate horizon it) ∧
    (∀ nGradEval : ℕ, calcRelaxationAtGradEval rate horizon nGradEval =
      calcRelaxation rate horizon (nGradEval + 1)) := by
  refine ⟨?_, ?_, ?_, ?_, ?_, fun _ => rfl⟩
  · unfold calcRelaxation
    rw [Nat.cast_zero, sub_zero]
    exact max_eq_right (mul_nonneg hr hh)
  · intro it hit
    unfold calcRelaxation
    exact max_eq_right (mul_nonneg hr (by linarith))
  · intro it hit
    unfold calcRelaxation
    exact max_eq_left (mul_nonpos_of_nonneg_of_nonpos hr (by linarith))
  · intro m n hmn
    unfold calcRelaxation
    refine max_le_max le_rfl ?_
    have : (m : ℝ) ≤ (n : ℝ) := Nat.cast_le.mpr hmn
    exact mul_le_mul_of_nonneg_left (by linarith) hr
  · intro it
    exact le_max_left _ _

/-- Witness for C5 at `(rate, horizon) = (1, 2)`. -/
theorem C5_witness :
    calcRelaxation 1 2 0 = 2 ∧ calcRelaxation 1 2 1 = 1 ∧
    calcRelaxation 1 2 3 = 0 ∧ calcRelaxationAtGradEval 1 2 0 = calcRelaxation 1 2 1 := by
  have h := C5_relaxation_schedule 1 2 (by norm_num) (by norm_num)
  refine ⟨?_, ?_, h.2.2.1 3 (by norm_num), h.2.2.2.2.2 0⟩
  · rw [h.1]; norm_num
  · rw [h.2.1 1 (by norm_num)]; norm_num

/-- **C7 counterexample.** The first inclusion zone is appended to the
domain with no area check: a triangle of area `1/2000 ≤ 1e-3` survives as
a component of the merged feasible domain, refuting the claim that every
component has area strictly above `1e-3`. -/
theorem C7_counterexample :
    calcResultingPolygons ringOps [([((0 : ℚ), 0), (1 / 10, 0), (0, 1 / 100)], true)] =
      [[((0 : ℚ), 0), (1 / 10, 0), (0, 1 / 100)]] ∧
    ringOps.area [((0 : ℚ), 0), (1 / 10, 0), (0, 1 / 100)] ≤ 1 / 1000 := by
  constructor
  · rfl
  · show |shoelace (closeRing [((0 : ℚ), 0), (1 / 10, 0), (0, 1 / 100)])| / 2 ≤ 1 / 1000
    rw [show shoelace (closeRing [((0 : ℚ), 0), (1 / 10, 0), (0, 1 / 100)]) = 1 / 1000 by
      norm_num [closeRing, shoelace, Prod.ext_iff]]
    rw [abs_of_nonneg (by norm_num)]
    norm_num

/-- **C7 amended.** Components produced by the area-checked paths (merged
inclusion zones, `MultiPolygon` exclusion remainders, hole-cutting) are
filtered at `1e-3`, but the first inclusion zone seeding the domain is
appended unconditionally; hence the invariant holds for a domain built
from a single inclusion zone exactly when that zone itself exceeds the
threshold. -/
theorem C7_amended_single_zone {P : Type} (ops : PolyOps P) (b : P)
    (hb : 1 / 1000 < ops.area b) :
    calcResultingPolygons ops [(b, true)] = [b] ∧
    ∀ p ∈ calcResultingPolygons ops [(b, true)], 1 / 1000 < ops.area p := by
  refine ⟨rfl, ?_⟩
  intro p hp
  have : p = b := by
    have : calcResultingPolygons ops [(b, true)] = [b] := rfl
    rw [this] at hp
    simpa using hp
  rw [this]
  exact hb

/-- Witness for the amended C7 at a unit square (area `1/2 > 1e-3` kept). -/
theorem C7_amended_witness :
    calcResultingPolygons ringOps [([((0 : ℚ), 0), (1, 0), (0, 1)], true)] =
      [[((0 : ℚ), 0), (1, 0), (0, 1)]] := by
  exact (C7_amended_single_zone ringOps [((0 : ℚ), 0), (1, 0), (0, 1)]
    (by show 1 / 1000 < |shoelace (closeRing [((0 : ℚ), 0), (1, 0), (0, 1)])| / 2
        norm_num [closeRing, shoelace, Prod.ext_iff])).1

theorem vlen_nonneg (u : V2) : 0 ≤ vlen u := Real.sqrt_nonneg _

theorem minAbs_single (v : ℝ) : minAbs [v] = |v| := rfl

theorem minAbs_cons_cons (v w : ℝ) (rest : List ℝ) :
    minAbs (v :: w :: rest) = min |v| (minAbs (w :: rest)) := rfl

theorem argminAbs_cons_cons (v w : ℝ) (rest : List ℝ) :
    argminAbs (v :: w :: rest) =
      if |v| ≤ minAbs (w :: rest) then 0 else argminAbs (w :: rest) + 1 := rfl

theorem minAbs_le {l : List ℝ} {i : ℕ} (hi : i < l.length) :
    minAbs l ≤ |l.getD i 0| := by
  induction l generalizing i with
  | nil => simp at hi
  | cons v t ih =>
    cases t with
    | nil =>
      cases i with
      | zero => simp [minAbs_single, List.getD]
      | succ j => simp at hi
    | cons w rest =>
      cases i with
      | zero => simp [minAbs_cons_cons, List.getD]
      | succ j =>
        have hj : j < (w :: rest).length := by simpa using hi
        calc minAbs (v :: w :: rest) ≤ minAbs (w :: rest) := by
              rw [minAbs_cons_cons]; exact min_le_right _ _
          _ ≤ |(w :: rest).getD j 0| := ih hj
          _ = |(v :: w :: rest).getD (j + 1) 0| := by simp [List.getD]

theorem argminAbs_lt_length {l : List ℝ} (h : l ≠ []) : argminAbs l < l.length := by
  induction l with
  | nil => exact absurd rfl h
  | cons v t ih =>
    cases t with
    | nil => simp [argminAbs]
    | cons w rest =>
      rw [argminAbs_cons_cons]
      split_ifs with hv
      · simp
      · have := ih (by simp)
        simpa using Nat.succ_lt_succ this

theorem getD_argminAbs {l : List ℝ} (h : l ≠ []) :
    |l.getD (argminAbs l) 0| = minAbs l := by
  induction l with
  | nil => exact absurd rfl h
  | cons v t ih =>
    cases t with
    | nil => simp [argminAbs, minAbs_single, List.getD]
    | cons w rest =>
      rw [argminAbs_cons_cons, minAbs_cons_cons]
      split_ifs with hv
      · simpa [List.getD] using (min_eq_left hv).symm
      · push_neg at hv
        have hih := ih (by simp)
        have : (v :: w :: rest).getD (argminAbs (w :: rest) + 1) 0 =
            (w :: rest).getD (argminAbs (w :: rest)) 0 := by simp [List.getD]
        rw [this, hih]
        exact (min_eq_right (le_of_lt hv)).symm

theorem argminAbs_first {l : List ℝ} {i : ℕ} (hi : i < argminAbs l) :
    minAbs l < |l.getD i 0| := by
  induction l generalizing i with
  | nil => simp [argminAbs] at hi
  | cons v t ih =>
    cases t with
    | nil => simp [argminAbs] at hi
    | cons w rest =>
      rw [argminAbs_cons_cons] at hi
      split_ifs at hi with hv
      · simp at hi
      · push_neg at hv
        have hmin : minAbs (v :: w :: rest) = minAbs (w :: rest) := by
          rw [minAbs_cons_cons]
          exact min_eq_right (le_of_lt hv)
        cases i with
        | zero =>
          rw [hmin]
          simpa [List.getD] using hv
        | succ j =>
          rw [hmin]
          have hj : j < argminAbs (w :: rest) := by omega
          simpa [List.getD] using ih hj

theorem sqrt_25 : Real.sqrt 25 = 5 := by
  rw [show (25 : ℝ) = 5 ^ 2 by norm_num]
  exact Real.sqrt_sq (by norm_num)

theorem sqrt_100 : Real.sqrt 100 = 10 := by
  rw [show (100 : ℝ) = 10 ^ 2 by norm_num]
  exact Real.sqrt_sq (by norm_num)

theorem sqrt_400 : Real.sqrt 400 = 20 := by
  rw [show (400 : ℝ) = 20 ^ 2 by norm_num]
  exact Real.sqrt_sq (by norm_num)

/-- **C1.** For every point `P` and edge `(A, B)` with projection parameter
`t = dot(P-A, AB) / |AB|`: if `t < 0` the computed result is the vertex-A
case (distance of magnitude `|P-A|`, Euclidean distance to the vertex,
signed by the averaged-vertex-normal side test, gradient the signed unit
vector from A to P); if `t > |AB|` it is the vertex-B case; otherwise the
edge-interior case (distance `dot(P-A, n̂)`, the perpendicular distance to
the edge line: `distance * |AB| = cross(AB, P-A)`); and the per-point value
reported by `calc_distance_and_gradients` (hence `distances`/`gradients`)
is the per-edge result of minimum absolute distance, ties broken by the
first (lowest) edge index. -/
theorem C1_polygon_nearest_feature (e : EdgeProps) (P : V2) (props : List EdgeProps)
    (hwf : EdgeWF e) (hne : props ≠ []) :
    (dotV (vsub P e.A) e.AB / e.AB_len < 0 →
      calcEdgeDG e P =
        ((if 0 < dotV (vsub P e.A) e.A_normal then (1 : ℝ) else -1) * vlen (vsub P e.A),
         smulV (if 0 < dotV (vsub P e.A) e.A_normal then (1 : ℝ) else -1)
           (sdivV (vsub P e.A) (vlen (vsub P e.A)))) ∧
      |(calcEdgeDG e P).1| = vlen (vsub P e.A)) ∧
    (¬dotV (vsub P e.A) e.AB / e.AB_len < 0 →
      e.AB_len < dotV (vsub P e.A) e.AB / e.AB_len →
      calcEdgeDG e P =
        ((if 0 < dotV (vsub P e.B) e.B_normal then (1 : ℝ) else -1) * vlen (vsub P e.B),
         smulV (if 0 < dotV (vsub P e.B) e.B_normal then (1 : ℝ) else -1)
           (sdivV (vsub P e.B) (vlen (vsub P e.B)))) ∧
      |(calcEdgeDG e P).1| = vlen (vsub P e.B)) ∧
    (¬dotV (vsub P e.A) e.AB / e.AB_len < 0 →
      ¬e.AB_len < dotV (vsub P e.A) e.AB / e.AB_len →
      calcEdgeDG e P = (dotV (vsub P e.A) e.edge_unit_normal, e.edge_unit_normal) ∧
      (calcEdgeDG e P).1 * e.AB_len = crossV e.AB (vsub P e.A)) ∧
    (argminAbs (props.map (fun e' => (calcEdgeDG e' P).1)) < props.length ∧
     calcDistanceAndGradients props P =
       (props.map (fun e' => calcEdgeDG e' P)).getD
         (argminAbs (props.map (fun e' => (calcEdgeDG e' P).1))) (0, (0, 0)) ∧
     (∀ j, j < props.length →
       |(props.map (fun e' => (calcEdgeDG e' P).1)).getD
           (argminAbs (props.map (fun e' => (calcEdgeDG e' P).1))) 0| ≤
         |(props.map (fun e' => (calcEdgeDG e' P).1)).getD j 0|) ∧
     (∀ j, j < argminAbs (props.map (fun e' => (calcEdgeDG e' P).1)) →
       |(props.map (fun e' => (calcEdgeDG e' P).1)).getD
           (argminAbs (props.map (fun e' => (calcEdgeDG e' P).1))) 0| <
         |(props.map (fun e' => (calcEdgeDG e' P).1)).getD j 0|)) := by
  obtain ⟨hAB, hlen, hpos, hn⟩ := hwf
  have hmapne : props.map (fun e' => (calcEdgeDG e' P).1) ≠ [] := by
    simpa using hne
  refine ⟨?_, ?_, ?_, ?_, rfl, ?_, ?_⟩
  · intro ht
    rw [show calcEdgeDG e P =
        ((if 0 < dotV (vsub P e.A) e.A_normal then (1 : ℝ) else -1) * vlen (vsub P e.A),
         smulV (if 0 < dotV (vsub P e.A) e.A_normal then (1 : ℝ) else -1)
           (sdivV (vsub P e.A) (vlen (vsub P e.A)))) by
      simp only [calcEdgeDG]
      rw [if_pos ht]]
    refine ⟨rfl, ?_⟩
    split_ifs
    · rw [one_mul, abs_of_nonneg (vlen_nonneg _)]
    · rw [neg_one_mul, abs_neg, abs_of_nonneg (vlen_nonneg _)]
  · intro ht hb
    rw [show calcEdgeDG e P =
        ((if 0 < dotV (vsub P e.B) e.B_normal then (1 : ℝ) else -1) * vlen (vsub P e.B),
         smulV (if 0 < dotV (vsub P e.B) e.B_normal then (1 : ℝ) else -1)
           (sdivV (vsub P e.B) (vlen (vsub P e.B)))) by
      simp only [calcEdgeDG]
      rw [if_neg ht, if_pos hb]]
    refine ⟨rfl, ?_⟩
    split_ifs
    · rw [one_mul, abs_of_nonneg (vlen_nonneg _)]
    · rw [neg_one_mul, abs_neg, abs_of_nonneg (vlen_nonneg _)]
  · intro ht hb
    have hcalc : calcEdgeDG e P = (dotV (vsub P e.A) e.edge_unit_normal,
        e.edge_unit_normal) := by
      simp only [calcEdgeDG]
      rw [if_neg ht, if_neg hb]
    refine ⟨hcalc, ?_⟩
    rw [hcalc, hn]
    have hL : e.AB_len ≠ 0 := ne_of_gt hpos
    simp only [dotV, sdivV, crossV]
    field_simp
    ring
  · simpa using argminAbs_lt_length hmapne
  · intro j hj
    rw [getD_argminAbs hmapne]
    exact minAbs_le (by simpa using hj)
  · intro j hj
    rw [getD_argminAbs hmapne]
    exact argminAbs_first hj

theorem edgeSq0_wf : EdgeWF edgeSq0 := by
  refine ⟨?_, ?_, by norm_num [edgeSq0], ?_⟩
  · simp [edgeSq0, vsub, Prod.ext_iff]
  · show (10 : ℝ) = vlen (10, 0)
    rw [vlen]
    norm_num [sqrt_100]
  · norm_num [edgeSq0, sdivV, Prod.ext_iff]

/-- Witness for C1: point `(-3, 4)` against the bottom square edge has
`t = -3 < 0`, so the vertex-A case applies: distance `|P - A| = 5` (on the
good side of A) with gradient the unit vector from A to P. -/
theorem C1_witness :
    calcEdgeDG edgeSq0 (-3, 4) = ((5 : ℝ), (-(3 / 5), 4 / 5)) ∧
    calcDistanceAndGradients [edgeSq0] (-3, 4) = ((5 : ℝ), (-(3 / 5), 4 / 5)) := by
  have h := C1_polygon_nearest_feature edgeSq0 (-3, 4) [edgeSq0] edgeSq0_wf (by simp)
  have ht : dotV (vsub (-3, 4) edgeSq0.A) edgeSq0.AB / edgeSq0.AB_len < 0 := by
    show dotV (vsub (-3, 4) (0, 0)) (10, 0) / 10 < 0
    norm_num [dotV, vsub]
  have hA : calcEdgeDG edgeSq0 (-3, 4) = ((5 : ℝ), (-(3 / 5), 4 / 5)) := by
    have := (h.1 ht).1
    rw [this]
    have hv : vlen (vsub ((-3 : ℝ), 4) edgeSq0.A) = 5 := by
      show vlen (vsub (-3, 4) (0, 0)) = 5
      rw [vsub, vlen]
      norm_num [sqrt_25]
    have hgood : (0 : ℝ) < dotV (vsub (-3, 4) edgeSq0.A) edgeSq0.A_normal := by
      show (0 : ℝ) < dotV (vsub (-3, 4) (0, 0)) (1 / 2, 1 / 2)
      norm_num [dotV, vsub]
    rw [if_pos hgood, hv]
    norm_num [smulV, sdivV, vsub, edgeSq0, Prod.ext_iff]
  refine ⟨hA, ?_⟩
  have hred := h.2.2.2.2.1
  rw [hred]
  simp [List.getD, argminAbs, hA]

/-- Auxiliary evaluator for `vlen` at concrete points. -/
theorem vlen_eval (x y r : ℝ) (hr : 0 ≤ r) (h : x ^ 2 + y ^ 2 = r ^ 2) :
    vlen (x, y) = r := by
  rw [vlen]
  show Real.sqrt (x ^ 2 + y ^ 2) = r
  rw [h]
  exact Real.sqrt_sq hr

/-- **C2 counterexample.** For the circle centered at `(0,0)` with radius
`10`, the gradient at the center is the unchanged `-1` initialization
`(-1, -1)` — not the `(0, 0)` the claim states for the singular case. -/
theorem C2_counterexample :
    circleGradient (0, 0) 10 (0, 0) = ((-1 : ℝ), -1) ∧
    circleGradient (0, 0) 10 (0, 0) ≠ ((0 : ℝ), 0) := by
  have h0 : vlen (vsub ((0 : ℝ), (0 : ℝ)) (0, 0)) = 0 := by
    rw [vsub]
    exact vlen_eval _ _ 0 le_rfl (by norm_num)
  have hd : circleDistance (0, 0) 10 (0, 0) = 10 := by
    rw [circleDistance, h0]; norm_num
  have hg : circleGradient (0, 0) 10 (0, 0) = ((-1 : ℝ), -1) := by
    rw [circleGradient, if_neg (by rw [hd]; simp)]
  exact ⟨hg, by rw [hg]; norm_num [Prod.ext_iff]⟩

/-- **C2 amended.** Circle centered `(0,0)`, radius `10`: the center yields
distance `10.0` and gradient `(-1, -1)` (the gradient arrays' untouched
`-1` initialization at the singular point, not `(0, 0)`); the point
`(20, 0)` yields distance `-10.0` and gradient `(-1, 0)`. -/
theorem C2_circle_values :
    circleDistance (0, 0) 10 (0, 0) = 10 ∧
    circleGradient (0, 0) 10 (0, 0) = ((-1 : ℝ), -1) ∧
    circleDistance (0, 0) 10 (20, 0) = -10 ∧
    circleGradient (0, 0) 10 (20, 0) = ((-1 : ℝ), 0) := by
  have h0 : vlen (vsub ((0 : ℝ), (0 : ℝ)) (0, 0)) = 0 := by
    rw [vsub]
    exact vlen_eval _ _ 0 le_rfl (by norm_num)
  have h20 : vlen (vsub ((20 : ℝ), (0 : ℝ)) (0, 0)) = 20 := by
    rw [vsub]
    exact vlen_eval _ _ 20 (by norm_num) (by norm_num)
  have hd0 : circleDistance (0, 0) 10 (0, 0) = 10 := by
    rw [circleDistance, h0]; norm_num
  have hd20 : circleDistance (0, 0) 10 (20, 0) = -10 := by
    rw [circleDistance, h20]; norm_num
  refine ⟨hd0, ?_, hd20, ?_⟩
  · rw [circleGradient, if_neg (by rw [hd0]; simp)]
  · rw [circleGradient, if_pos (by rw [hd20]; norm_num), h20]
    norm_num [Prod.ext_iff]

/-- The code's doubly-projected face distance coincides with the signed
perpendicular distance for every non-degenerate edge. -/
theorem faceDistance_eq_spec (verts : List V2) (P : V2) (j : ℕ)
    (h : 0 < vlen (vsub (verts.getD ((j + 1) % verts.length) (0, 0))
      (verts.getD j (0, 0)))) :
    faceDistance verts P j = specPerpDistance verts P j := by
  set a := verts.getD j (0, 0) with ha
  set b := verts.getD ((j + 1) % verts.length) (0, 0) with hb
  have hlen : vlen ((b.2 - a.2, -(b.1 - a.1)) : V2) = vlen (vsub b a) := by
    simp only [vlen, vsub]
    congr 1
    ring
  have hL : vlen (vsub b a) ≠ 0 := ne_of_gt h
  have hsq : vlen (vsub b a) * vlen (vsub b a) = (b.1 - a.1) ^ 2 + (b.2 - a.2) ^ 2 := by
    rw [show vlen (vsub b a) * vlen (vsub b a) = vlen (vsub b a) ^ 2 by ring]
    simp only [vlen, vsub]
    exact Real.sq_sqrt (by positivity)
  have hn1 : convexNormal verts j =
      ((b.2 - a.2) / vlen (vsub b a), -(b.1 - a.1) / vlen (vsub b a)) := by
    simp only [convexNormal, ← ha, ← hb, hlen, sdivV]
  have hdot : dotV ((b.2 - a.2) / vlen (vsub b a), -(b.1 - a.1) / vlen (vsub b a))
      ((b.2 - a.2) / vlen (vsub b a), -(b.1 - a.1) / vlen (vsub b a)) = 1 := by
    simp only [dotV]
    field_simp
    rw [hsq]
    ring
  have hL' : vlen (((b.1 - a.1 : ℝ), (b.2 - a.2 : ℝ)) : V2) ≠ 0 := by
    simpa [vsub] using hL
  simp only [faceDistance, ← ha, ← hb, hn1]
  rw [hdot, mul_one]
  simp only [specPerpDistance, ← ha, ← hb, dotV, crossV, vsub]
  field_simp
  ring

theorem convexNormal_sq0 : convexNormal squareRing 0 = ((0 : ℝ), -1) := by
  show sdivV ((0 : ℝ) - 0, -((10 : ℝ) - 0)) (vlen ((0 : ℝ) - 0, -((10 : ℝ) - 0))) = _
  rw [show ((0 : ℝ) - 0, -((10 : ℝ) - 0)) = ((0 : ℝ), (-10 : ℝ)) by norm_num [Prod.ext_iff]]
  rw [vlen_eval 0 (-10) 10 (by norm_num) (by norm_num)]
  norm_num [sdivV, Prod.ext_iff]

theorem convexNormal_sq1 : convexNormal squareRing 1 = ((1 : ℝ), 0) := by
  show sdivV ((10 : ℝ) - 0, -((10 : ℝ) - 10)) (vlen ((10 : ℝ) - 0, -((10 : ℝ) - 10))) = _
  rw [show ((10 : ℝ) - 0, -((10 : ℝ) - 10)) = ((10 : ℝ), (0 : ℝ)) by norm_num [Prod.ext_iff]]
  rw [vlen_eval 10 0 10 (by norm_num) (by norm_num)]
  norm_num [sdivV, Prod.ext_iff]

theorem convexNormal_sq2 : convexNormal squareRing 2 = ((0 : ℝ), 1) := by
  show sdivV ((10 : ℝ) - 10, -((0 : ℝ) - 10)) (vlen ((10 : ℝ) - 10, -((0 : ℝ) - 10))) = _
  rw [show ((10 : ℝ) - 10, -((0 : ℝ) - 10)) = ((0 : ℝ), (10 : ℝ)) by norm_num [Prod.ext_iff]]
  rw [vlen_eval 0 10 10 (by norm_num) (by norm_num)]
  norm_num [sdivV, Prod.ext_iff]

theorem convexNormal_sq3 : convexNormal squareRing 3 = ((-1 : ℝ), 0) := by
  show sdivV ((0 : ℝ) - 10, -((0 : ℝ) - 0)) (vlen ((0 : ℝ) - 10, -((0 : ℝ) - 0))) = _
  rw [show ((0 : ℝ) - 10, -((0 : ℝ) - 0)) = ((-10 : ℝ), (0 : ℝ)) by norm_num [Prod.ext_iff]]
  rw [vlen_eval (-10) 0 10 (by norm_num) (by norm_num)]
  norm_num [sdivV, Prod.ext_iff]

theorem faceDistance_sq_inner (j : ℕ) (hj : j < 4) :
    faceDistance squareRing (5, 5) j = 5 := by
  interval_cases j
  · rw [faceDistance, convexNormal_sq0]
    show dotV (vsub ((0 : ℝ), (0 : ℝ)) (5, 5)) (0, -1) * dotV ((0 : ℝ), -1) (0, -1) = 5
    norm_num [dotV, vsub]
  · rw [faceDistance, convexNormal_sq1]
    show dotV (vsub ((10 : ℝ), (0 : ℝ)) (5, 5)) (1, 0) * dotV ((1 : ℝ), 0) (1, 0) = 5
    norm_num [dotV, vsub]
  · rw [faceDistance, convexNormal_sq2]
    show dotV (vsub ((10 : ℝ), (10 : ℝ)) (5, 5)) (0, 1) * dotV ((0 : ℝ), 1) (0, 1) = 5
    norm_num [dotV, vsub]
  · rw [faceDistance, convexNormal_sq3]
    show dotV (vsub ((0 : ℝ), (10 : ℝ)) (5, 5)) (-1, 0) * dotV ((-1 : ℝ), 0) (-1, 0) = 5
    norm_num [dotV, vsub]

theorem faceDistance_sq_outer : faceDistance squareRing (15, 5) 1 = -5 := by
  rw [faceDistance, convexNormal_sq1]
  show dotV (vsub ((10 : ℝ), (0 : ℝ)) (15, 5)) (1, 0) * dotV ((1 : ℝ), 0) (1, 0) = -5
  norm_num [dotV, vsub]

/-- **C3.** For `ConvexBoundaryComp`, `distances(x, y)` exposes, per point,
the signed perpendicular distance to every hull edge (positive inside):
the per-edge value equals `cross(B-A, P-A)/|B-A|` for every non-degenerate
edge, and for the square ring `(0,0),(10,0),(10,10),(0,10)` the point
`(5,5)` gets distance `5.0` from every edge while `(15,5)` gets `-5.0`
from the right edge (edge index 1). -/
theorem C3_convex_distances (verts : List V2) (P : V2) (j : ℕ) (x y : List ℝ)
    (h : 0 < vlen (vsub (verts.getD ((j + 1) % verts.length) (0, 0))
      (verts.getD j (0, 0)))) :
    faceDistance verts P j = specPerpDistance verts P j ∧
    distancesConvex verts x y =
      (x.zip y).map (fun p => (List.range verts.length).map
        (fun j' => faceDistance verts p j')) ∧
    distancesConvex squareRing [5, 15] [5, 5] =
      [[5, 5, 5, 5], [5, -5, 5, 15]] := by
  refine ⟨faceDistance_eq_spec verts P j h, rfl, ?_⟩
  have h20 : faceDistance squareRing (15, 5) 0 = 5 := by
    rw [faceDistance, convexNormal_sq0]
    show dotV (vsub ((0 : ℝ), (0 : ℝ)) (15, 5)) (0, -1) * dotV ((0 : ℝ), -1) (0, -1) = 5
    norm_num [dotV, vsub]
  have h22 : faceDistance squareRing (15, 5) 2 = 5 := by
    rw [faceDistance, convexNormal_sq2]
    show dotV (vsub ((10 : ℝ), (10 : ℝ)) (15, 5)) (0, 1) * dotV ((0 : ℝ), 1) (0, 1) = 5
    norm_num [dotV, vsub]
  have h23 : faceDistance squareRing (15, 5) 3 = 15 := by
    rw [faceDistance, convexNormal_sq3]
    show dotV (vsub ((0 : ℝ), (10 : ℝ)) (15, 5)) (-1, 0) * dotV ((-1 : ℝ), 0) (-1, 0) = 15
    norm_num [dotV, vsub]
  show ([((5 : ℝ), (5 : ℝ)), (15, 5)]).map
      (fun p => (List.range 4).map (fun j' => faceDistance squareRing p j')) = _
  simp only [List.range_succ, List.range_zero, List.map_cons, List.map_nil,
    List.map_append, List.nil_append]
  rw [faceDistance_sq_inner 0 (by norm_num), faceDistance_sq_inner 1 (by norm_num),
    faceDistance_sq_inner 2 (by norm_num), faceDistance_sq_inner 3 (by norm_num),
    h20, faceDistance_sq_outer, h22, h23]
  simp

/-- Witness for C3: the non-degeneracy hypothesis at the square's bottom
edge (`|B - A| = 10 > 0`), with the refinement and concrete distances. -/
theorem C3_witness :
    faceDistance squareRing (5, 5) 0 = specPerpDistance squareRing (5, 5) 0 := by
  refine (C3_convex_distances squareRing (5, 5) 0 [] [] ?_).1
  show 0 < vlen (vsub ((10 : ℝ), (0 : ℝ)) (0, 0))
  rw [vsub, show ((10 : ℝ) - 0, (0 : ℝ) - 0) = ((10 : ℝ), (0 : ℝ)) by norm_num [Prod.ext_iff],
    vlen_eval 10 0 10 (by norm_num) (by norm_num)]
  norm_num

theorem minList_nonneg {l : List ℝ} (h : ∀ v ∈ l, 0 ≤ v) : 0 ≤ minList l := by
  induction l with
  | nil => exact le_rfl
  | cons v t ih =>
    cases t with
    | nil => exact h v (by simp)
    | cons w rest =>
      rw [show minList (v :: w :: rest) = min v (minList (w :: rest)) from rfl]
      refine le_min (h v (by simp)) (ih ?_)
      intro u hu
      exact h u (by simp [hu])

theorem getD_map_zip (x y : List ℝ) (f : ℝ × ℝ → ℝ) (i : ℕ)
    (hlen : x.length = y.length) (hi : i < x.length) :
    ((x.zip y).map f).getD i 0 = f (x.getD i 0, y.getD i 0) := by
  induction x generalizing y i with
  | nil => simp at hi
  | cons a xt ih =>
    cases y with
    | nil => simp at hlen
    | cons b yt =>
      cases i with
      | zero => simp [List.getD]
      | succ k =>
        have h1 : xt.length = yt.length := by simpa using hlen
        have h2 : k < xt.length := by simpa using hi
        simpa [List.getD] using ih yt k h1 h2

theorem getD_map_map_zip (x y : List ℝ) (g : ℝ × ℝ → ℝ × ℝ) (f : ℝ × ℝ → ℝ) (i : ℕ)
    (hlen : x.length = y.length) (hi : i < x.length) :
    (((x.zip y).map g).map f).getD i 0 = f (g (x.getD i 0, y.getD i 0)) := by
  rw [List.map_map]
  exact getD_map_zip x y (f ∘ g) i hlen hi

/-- **C9.** `satisfy` is idempotent on feasible points: a point whose signed
distance is non-negative (all per-edge distances non-negative in the convex
case) is left at exactly its coordinates by `PolygonBoundaryComp.satisfy`
and by `ConvexBoundaryComp.satisfy`. -/
theorem C9_satisfy_idempotent_on_feasible
    (props : List EdgeProps) (verts : List V2) (pad : ℝ) (x y : List ℝ) (i : ℕ)
    (hlen : x.length = y.length) (hi : i < x.length)
    (hpoly : 0 ≤ (calcDistanceAndGradients props (x.getD i 0, y.getD i 0)).1)
    (hconv : ∀ j, j < verts.length →
      0 ≤ faceDistance verts (x.getD i 0, y.getD i 0) j) :
    (satisfyPoly props pad x y).1.getD i 0 = x.getD i 0 ∧
    (satisfyPoly props pad x y).2.getD i 0 = y.getD i 0 ∧
    (satisfyConvex verts x y).1.getD i 0 = x.getD i 0 ∧
    (satisfyConvex verts x y).2.getD i 0 = y.getD i 0 := by
  have hnotlt : ¬(calcDistanceAndGradients props (x.getD i 0, y.getD i 0)).1 < 0 :=
    not_lt.mpr hpoly
  have hd : ∀ v ∈ (List.range verts.length).map (fun j =>
      let dj := faceDistance verts (x.getD i 0, y.getD i 0) j
      if dj < 0 then min dj (-(1 / 100)) else dj), 0 ≤ v := by
    intro v hv
    simp only [List.mem_map, List.mem_range] at hv
    obtain ⟨j, hj, rfl⟩ := hv
    have h0 := hconv j hj
    show 0 ≤ if faceDistance verts (x.getD i 0, y.getD i 0) j < 0 then
        min (faceDistance verts (x.getD i 0, y.getD i 0) j) (-(1 / 100))
      else faceDistance verts (x.getD i 0, y.getD i 0) j
    rw [if_neg (not_lt.mpr h0)]
    exact h0
  have hmin : ¬minList ((List.range verts.length).map (fun j =>
      let dj := faceDistance verts (x.getD i 0, y.getD i 0) j
      if dj < 0 then min dj (-(1 / 100)) else dj)) < 0 :=
    not_lt.mpr (minList_nonneg hd)
  refine ⟨?_, ?_, ?_, ?_⟩
  · have e1 : (satisfyPoly props pad x y).1 =
        ((x.zip y).map (fun p =>
          let r := calcDistanceAndGradients props p
          if r.1 < 0 then (p.1 - r.2.1 * r.1 * pad, p.2 - r.2.2 * r.1 * pad)
          else p)).map Prod.fst := rfl
    have hg1 : (fun p : ℝ × ℝ =>
        let r := calcDistanceAndGradients props p
        if r.1 < 0 then (p.1 - r.2.1 * r.1 * pad, p.2 - r.2.2 * r.1 * pad) else p)
        (x.getD i 0, y.getD i 0) = (x.getD i 0, y.getD i 0) := if_neg hnotlt
    rw [e1, getD_map_map_zip x y _ _ i hlen hi]
    exact congrArg Prod.fst hg1
  · have e2 : (satisfyPoly props pad x y).2 =
        ((x.zip y).map (fun p =>
          let r := calcDistanceAndGradients props p
          if r.1 < 0 then (p.1 - r.2.1 * r.1 * pad, p.2 - r.2.2 * r.1 * pad)
          else p)).map Prod.snd := rfl
    have hg2 : (fun p : ℝ × ℝ =>
        let r := calcDistanceAndGradients props p
        if r.1 < 0 then (p.1 - r.2.1 * r.1 * pad, p.2 - r.2.2 * r.1 * pad) else p)
        (x.getD i 0, y.getD i 0) = (x.getD i 0, y.getD i 0) := if_neg hnotlt
    rw [e2, getD_map_map_zip x y _ _ i hlen hi]
    exact congrArg Prod.snd hg2
  · have e3 : (satisfyConvex verts x y).1 =
        ((x.zip y).map (fun p =>
          let d := (List.range verts.length).map (fun j =>
            let dj := faceDistance verts p j
            if dj < 0 then min dj (-(1 / 100)) else dj)
          if minList d < 0 then
            let a := |minList d|
            let v := linspace (-a) a 100
            let cand := (v.product v).filter (fun c =>
              decide (∀ t ∈ (((List.range verts.length).map
                  (fun j => dfaceDistance_dx_entry verts j)).zip
                ((List.range verts.length).map
                  (fun j => dfaceDistance_dy_entry verts j))).zip d,
                -t.2 ≤ c.1 * t.1.1 + c.2 * t.1.2))
            let mv := pickMinNorm cand
            (p.1 + mv.1, p.2 + mv.2)
          else p)).map Prod.fst := rfl
    have hg3 : (fun p : ℝ × ℝ =>
        let d := (List.range verts.length).map (fun j =>
          let dj := faceDistance verts p j
          if dj < 0 then min dj (-(1 / 100)) else dj)
        if minList d < 0 then
          let a := |minList d|
          let v := linspace (-a) a 100
          let cand := (v.product v).filter (fun c =>
            decide (∀ t ∈ (((List.range verts.length).map
                (fun j => dfaceDistance_dx_entry verts j)).zip
              ((List.range verts.length).map
                (fun j => dfaceDistance_dy_entry verts j))).zip d,
              -t.2 ≤ c.1 * t.1.1 + c.2 * t.1.2))
          let mv := pickMinNorm cand
          (p.1 + mv.1, p.2 + mv.2)
        else p)
        (x.getD i 0, y.getD i 0) = (x.getD i 0, y.getD i 0) := if_neg hmin
    rw [e3, getD_map_map_zip x y _ _ i hlen hi]
    exact congrArg Prod.fst hg3
  · have e4 : (satisfyConvex verts x y).2 =
        ((x.zip y).map (fun p =>
          let d := (List.range verts.length).map (fun j =>
            let dj := faceDistance verts p j
            if dj < 0 then min dj (-(1 / 100)) else dj)
          if minList d < 0 then
            let a := |minList d|
            let v := linspace (-a) a 100
            let cand := (v.product v).filter (fun c =>
              decide (∀ t ∈ (((List.range verts.length).map
                  (fun j => dfaceDistance_dx_entry verts j)).zip
                ((List.range verts.length).map
                  (fun j => dfaceDistance_dy_entry verts j))).zip d,
                -t.2 ≤ c.1 * t.1.1 + c.2 * t.1.2))
            let mv := pickMinNorm cand
            (p.1 + mv.1, p.2 + mv.2)
          else p)).map Prod.snd := rfl
    have hg4 : (fun p : ℝ × ℝ =>
        let d := (List.range verts.length).map (fun j =>
          let dj := faceDistance verts p j
          if dj < 0 then min dj (-(1 / 100)) else dj)
        if minList d < 0 then
          let a := |minList d|
          let v := linspace (-a) a 100
          let cand := (v.product v).filter (fun c =>
            decide (∀ t ∈ (((List.range verts.length).map
                (fun j => dfaceDistance_dx_entry verts j)).zip
              ((List.range verts.length).map
                (fun j => dfaceDistance_dy_entry verts j))).zip d,
              -t.2 ≤ c.1 * t.1.1 + c.2 * t.1.2))
          let mv := pickMinNorm cand
          (p.1 + mv.1, p.2 + mv.2)
        else p)
        (x.getD i 0, y.getD i 0) = (x.getD i 0, y.getD i 0) := if_neg hmin
    rw [e4, getD_map_map_zip x y _ _ i hlen hi]
    exact congrArg Prod.snd hg4

/-- Witness for C9: the feasible point `(5, 5)` (distance `5` to the bottom
square edge, distance `5` to all four convex faces) is left unmoved. -/
theorem C9_witness :
    (satisfyPoly [edgeSq0] (11 / 10) [5] [5]).1.getD 0 0 = 5 ∧
    (satisfyConvex squareRing [5] [5]).1.getD 0 0 = 5 := by
  have hce : calcEdgeDG edgeSq0 ((5 : ℝ), 5) = ((5 : ℝ), ((0 : ℝ), 1)) := by
    have ht : ¬dotV (vsub ((5 : ℝ), 5) edgeSq0.A) edgeSq0.AB / edgeSq0.AB_len < 0 := by
      show ¬dotV (vsub ((5 : ℝ), 5) (0, 0)) (10, 0) / 10 < 0
      norm_num [dotV, vsub]
    have hb : ¬edgeSq0.AB_len <
        dotV (vsub ((5 : ℝ), 5) edgeSq0.A) edgeSq0.AB / edgeSq0.AB_len := by
      show ¬(10 : ℝ) < dotV (vsub ((5 : ℝ), 5) (0, 0)) (10, 0) / 10
      norm_num [dotV, vsub]
    simp only [calcEdgeDG]
    rw [if_neg ht, if_neg hb]
    norm_num [dotV, vsub, edgeSq0, Prod.ext_iff]
  have hcd : calcDistanceAndGradients [edgeSq0] ((5 : ℝ), 5) = ((5 : ℝ), ((0 : ℝ), 1)) := by
    rw [calcDistanceAndGradients]
    simp [hce, argminAbs, List.getD]
  have hpoly : 0 ≤ (calcDistanceAndGradients [edgeSq0]
      (([5] : List ℝ).getD 0 0, ([5] : List ℝ).getD 0 0)).1 := by
    show 0 ≤ (calcDistanceAndGradients [edgeSq0] ((5 : ℝ), 5)).1
    rw [hcd]
    norm_num
  have hconv : ∀ j, j < squareRing.length →
      0 ≤ faceDistance squareRing
        (([5] : List ℝ).getD 0 0, ([5] : List ℝ).getD 0 0) j := by
    intro j hj
    show 0 ≤ faceDistance squareRing ((5 : ℝ), 5) j
    rw [faceDistance_sq_inner j (by simpa [squareRing] using hj)]
    norm_num
  have h := C9_satisfy_idempotent_on_feasible [edgeSq0] squareRing (11 / 10)
    [5] [5] 0 (by simp) (by simp) hpoly hconv
  exact ⟨h.1, h.2.2.1⟩

/-- **C10.** `ConvexBoundaryComp.gradients` is constant in the point
positions: any two queries return the identical precomputed Jacobian pair,
whose entry at row `i * nVertices + j`, column `i` is the doubly-projected
edge-normal derivative from `calculate_gradients`. -/
theorem C10_convex_gradients_constant (verts : List V2) (n_wt : ℕ)
    (x1 y1 x2 y2 : List ℝ) (i j : ℕ) (hi : i < n_wt) (hj : j < verts.length) :
    gradientsConvex verts n_wt x1 y1 = gradientsConvex verts n_wt x2 y2 ∧
    gradientsConvex verts n_wt x1 y1 =
      (dfaceDistance_dx verts n_wt, dfaceDistance_dy verts n_wt) ∧
    dfaceDistance_dx verts n_wt (i * verts.length + j) i =
      dfaceDistance_dx_entry verts j ∧
    dfaceDistance_dy verts n_wt (i * verts.length + j) i =
      dfaceDistance_dy_entry verts j := by
  have hnV : 0 < verts.length := lt_of_le_of_lt (Nat.zero_le _) hj
  have hbound : i * verts.length + j < n_wt * verts.length := by
    calc i * verts.length + j < i * verts.length + verts.length := by omega
      _ = (i + 1) * verts.length := by ring
      _ ≤ n_wt * verts.length := Nat.mul_le_mul_right _ hi
  have hdiv : (i * verts.length + j) / verts.length = i := by
    rw [Nat.add_comm, Nat.add_mul_div_right j i hnV, Nat.div_eq_of_lt hj, Nat.zero_add]
  have hmod : (i * verts.length + j) % verts.length = j := by
    rw [Nat.add_comm, Nat.add_mul_mod_self_right, Nat.mod_eq_of_lt hj]
  refine ⟨rfl, rfl, ?_, ?_⟩
  · rw [dfaceDistance_dx, if_pos ⟨hbound, hdiv.symm⟩, hmod]
  · rw [dfaceDistance_dy, if_pos ⟨hbound, hdiv.symm⟩, hmod]

/-- Witness for C10 on the square with one point: the x-Jacobian entry for
edge 1 (outward normal `(1, 0)`) is `-1`, the y-entry `0`, and two
different queries coincide. -/
theorem C10_witness :
    gradientsConvex squareRing 1 [0] [0] = gradientsConvex squareRing 1 [7] [9] ∧
    dfaceDistance_dx squareRing 1 1 0 = -1 ∧
    dfaceDistance_dy squareRing 1 1 0 = 0 := by
  have h := C10_convex_gradients_constant squareRing 1 [0] [0] [7] [9] 0 1
    (by norm_num) (by simp [squareRing])
  have hidx : 0 * squareRing.length + 1 = 1 := by simp [squareRing]
  refine ⟨h.1, ?_, ?_⟩
  · have h3 := h.2.2.1
    rw [hidx] at h3
    rw [h3]
    simp only [dfaceDistance_dx_entry]
    rw [convexNormal_sq1]
    norm_num [dotV, smulV]
  · have h4 := h.2.2.2
    rw [hidx] at h4
    rw [h4]
    simp only [dfaceDistance_dy_entry]
    rw [convexNormal_sq1]
    norm_num [dotV, smulV]

/-- Under a consistent cache, `calc_distance_and_gradients` always returns
the value of direct recomputation. -/
theorem mpCalcDG_fst_eq (c : MPComp) (cache : Option ((List ℝ × List ℝ) × MPOut))
    (x y : List ℝ)
    (hcons : ∀ k out, cache = some (k, out) → out = computeMP c.props k.1 k.2) :
    (mpCalcDG c cache x y).1 = computeMP c.props x y := by
  match cache with
  | none => rfl
  | some (k, out) =>
    show (if k = (x, y) ∧ c.relaxation = none then (out, some (k, out))
      else (computeMP c.props x y, some ((x, y), computeMP c.props x y))).1 = _
    split_ifs with h
    · have := hcons k out rfl
      rw [this, h.1]
    · rfl

/-- **C8.** With relaxation enabled, `calc_distance_and_gradients` ignores
the single-slot cache and recomputes on every call (for any cache
content); with relaxation disabled, the returned value equals direct
recomputation, the refilled cache stays consistent, and a second call with
the identical `(x, y)` returns exactly the first call's output (served
from the cache). -/
theorem C8_cache_semantics (c : MPComp) (cache : Option ((List ℝ × List ℝ) × MPOut))
    (x y : List ℝ)
    (hcons : ∀ k out, cache = some (k, out) → out = computeMP c.props k.1 k.2) :
    (c.relaxation ≠ none → ∀ cache' : Option ((List ℝ × List ℝ) × MPOut),
      (mpCalcDG c cache' x y).1 = computeMP c.props x y) ∧
    (mpCalcDG c cache x y).1 = computeMP c.props x y ∧
    (∀ k out, (mpCalcDG c cache x y).2 = some (k, out) →
      out = computeMP c.props k.1 k.2) ∧
    (c.relaxation = none →
      (mpCalcDG c (mpCalcDG c cache x y).2 x y).1 = (mpCalcDG c cache x y).1) := by
  refine ⟨?_, mpCalcDG_fst_eq c cache x y hcons, ?_, ?_⟩
  · intro hrel cache'
    match cache' with
    | none => rfl
    | some (k, out) =>
      show (if k = (x, y) ∧ c.relaxation = none then (out, some (k, out))
        else (computeMP c.props x y, some ((x, y), computeMP c.props x y))).1 = _
      rw [if_neg (fun h => hrel h.2)]
  · intro k out hsnd
    match cache, hcons with
    | none, _ =>
      have : (some ((x, y), computeMP c.props x y) :
          Option ((List ℝ × List ℝ) × MPOut)) = some (k, out) := hsnd
      obtain ⟨h1, h2⟩ := Prod.mk.injEq _ _ _ _ ▸ Option.some.inj this
      rw [← h2, ← h1]
    | some (k0, out0), hcons =>
      revert hsnd
      show (if k0 = (x, y) ∧ c.relaxation = none then (out0, some (k0, out0))
        else (computeMP c.props x y, some ((x, y), computeMP c.props x y))).2 =
          some (k, out) → _
      split_ifs with h
      · intro hsnd
        obtain ⟨h1, h2⟩ := Prod.mk.injEq _ _ _ _ ▸ Option.some.inj hsnd
        rw [← h2, ← h1]
        exact hcons k0 out0 rfl
      · intro hsnd
        obtain ⟨h1, h2⟩ := Prod.mk.injEq _ _ _ _ ▸ Option.some.inj hsnd
        rw [← h2, ← h1]
  · intro hrel
    have hfst : (mpCalcDG c cache x y).1 = computeMP c.props x y :=
      mpCalcDG_fst_eq c cache x y hcons
    have hsndeq : (mpCalcDG c cache x y).2 = some ((x, y), computeMP c.props x y) := by
      match cache, hcons with
      | none, _ => rfl
      | some (k0, out0), hcons =>
        show (if k0 = (x, y) ∧ c.relaxation = none then (out0, some (k0, out0))
          else (computeMP c.props x y, some ((x, y), computeMP c.props x y))).2 = _
        split_ifs with h
        · show some (k0, out0) = _
          rw [hcons k0 out0 rfl, h.1]
        · rfl
    rw [hsndeq]
    show (if (x, y) = (x, y) ∧ c.relaxation = none then
        (computeMP c.props x y, some ((x, y), computeMP c.props x y))
      else (computeMP c.props x y, some ((x, y), computeMP c.props x y))).1 = _
    rw [if_pos ⟨rfl, hrel⟩]
    exact hfst.symm

/-- Witness for C8: with relaxation off and an empty cache, the second call
with the same positions returns the first call's output. -/
theorem C8_witness :
    (mpCalcDG mpCompNoRelax (mpCalcDG mpCompNoRelax none [5] [5]).2 [5] [5]).1 =
      (mpCalcDG mpCompNoRelax none [5] [5]).1 := by
  exact (C8_cache_semantics mpCompNoRelax none [5] [5] (by intro k out h; cases h)).2.2.2 rfl

theorem mpGradients_of_relax (c : MPComp) (cache : Option ((List ℝ × List ℝ) × MPOut))
    (x y : List ℝ) (rate horizon : ℝ) (hrel : c.relaxation = some (rate, horizon)) :
    mpGradients c cache x y = ((mpPosGradient c (mpCalcDG c cache x y).1,
      some (List.replicate c.n_wt horizon)), (mpCalcDG c cache x y).2) := by
  simp only [mpGradients, hrel]

theorem mpGradients_of_none (c : MPComp) (cache : Option ((List ℝ × List ℝ) × MPOut))
    (x y : List ℝ) (hrel : c.relaxation = none) :
    mpGradients c cache x y = ((mpPosGradient c (mpCalcDG c cache x y).1, none),
      (mpCalcDG c cache x y).2) := by
  simp only [mpGradients, hrel]

/-- **C6 counterexample.** With relaxation `(rate, horizon) = (2, 3)` at
`n_grad_eval = 0` the offset is `4 > 0` (relaxation active), yet the third
gradient component is the constant `horizon` vector `[3]`, not the claimed
`∂(distance)/∂iteration = -rate = [-2]`. -/
theorem C6_counterexample :
    calcRelaxationAtGradEval 2 3 0 = 4 ∧
    (mpGradients mpCompRelax none [5] [5]).1.2 = some [(3 : ℝ)] ∧
    some [(3 : ℝ)] ≠ some [(-2 : ℝ)] := by
  refine ⟨?_, rfl, ?_⟩
  · show max 0 (2 * ((3 : ℝ) - ((0 + 1 : ℕ) : ℝ))) = 4
    rw [show ((0 + 1 : ℕ) : ℝ) = 1 by norm_num,
      show (2 : ℝ) * ((3 : ℝ) - 1) = 4 by ring]
    exact max_eq_right (by norm_num)
  · intro h
    have h2 := Option.some.inj h
    have h3 : (3 : ℝ) = -2 := by
      have := congrArg (fun l => l.getD 0 0) h2
      simpa using this
    norm_num at h3

/-- **C6 amended.** With relaxation `(rate, horizon)` active,
`gradients(x, y)` returns exactly the same per-point `dDist/dx` and
`dDist/dy` as the identical component with relaxation disabled (the offset
leaves position gradients untouched), plus a third component that is the
constant vector `np.ones(n_wt) * horizon` (the code uses
`self.relaxation[1]`, the horizon — not the derivative `-rate` of the
reported distance with respect to the iteration counter). -/
theorem C6_relaxation_gradients_amended (c : MPComp)
    (cache : Option ((List ℝ × List ℝ) × MPOut)) (x y : List ℝ) (rate horizon : ℝ)
    (hrel : c.relaxation = some (rate, horizon))
    (hcons : ∀ k out, cache = some (k, out) → out = computeMP c.props k.1 k.2) :
    (mpGradients c cache x y).1.1 =
      (mpGradients { c with relaxation := none } cache x y).1.1 ∧
    (mpGradients c cache x y).1.2 = some (List.replicate c.n_wt horizon) := by
  have h1 : (mpCalcDG c cache x y).1 = computeMP c.props x y :=
    mpCalcDG_fst_eq c cache x y hcons
  have h2 : (mpCalcDG { c with relaxation := none } cache x y).1 =
      computeMP c.props x y :=
    mpCalcDG_fst_eq { c with relaxation := none } cache x y hcons
  constructor
  · rw [mpGradients_of_relax c cache x y rate horizon hrel,
      mpGradients_of_none { c with relaxation := none } cache x y rfl]
    show mpPosGradient c (mpCalcDG c cache x y).1 =
      mpPosGradient { c with relaxation := none }
        (mpCalcDG { c with relaxation := none } cache x y).1
    rw [h1, h2]
    rfl
  · rw [mpGradients_of_relax c cache x y rate horizon hrel]

/-- Witness for C6 (amended): the concrete relaxed component over the bottom
square edge at positions `[5], [5]`. -/
theorem C6_witness :
    (mpGradients mpCompRelax none [5] [5]).1.1 =
      (mpGradients { mpCompRelax with relaxation := none } none [5] [5]).1.1 ∧
    (mpGradients mpCompRelax none [5] [5]).1.2 = some (List.replicate 1 (3 : ℝ)) := by
  exact C6_relaxation_gradients_amended mpCompRelax none [5] [5] 2 3 rfl
    (by intro k out hh; cases hh)

